import Mathlib

/-!
Token-bucket rate limiter of src/concepts/go/rate_limiter/rate_limiter.go.

A shallow embedding of the function RateLimiter(maxRequests, duration), which
makes a channel of capacity maxRequests and starts a goroutine that forever
sleeps duration / maxRequests and then sends one permit on the channel, and
of the program's main, which receives five permits from RateLimiter(3, time.Minute).

Durations and instants are integers counting nanoseconds (time.Duration is an
int64); instants are measured from the creation of the limiter.  The producer
goroutine and the consumer are interleaved by a labelled step function on an
explicit state.  Time passes only through the two delay labels, so that
time.Sleep takes exactly its argument and every other statement takes no time.
-/

namespace RateLimiterGo

/-! ## Go primitives used by the program -/

/-- Run-time panics the statements of the program can raise. -/
inductive GoPanic where
  /-- Raised by `make(chan T, n)` for `n < 0`. -/
  | makechanSizeOutOfRange
  /-- Raised by an integer division whose divisor is zero. -/
  | integerDivideByZero
  /-- Raised by a send on a closed channel. -/
  | sendOnClosedChannel
  deriving DecidableEq, Repr

/-- Result of a statement that may raise a run-time panic. -/
inductive Result (α : Type) where
  | ok (a : α)
  | panicked (p : GoPanic)
  deriving DecidableEq, Repr

/-- The range of `int64` (and of `int` on 64-bit targets). -/
def isInt64 (x : Int) : Prop := -(2 ^ 63) ≤ x ∧ x < 2 ^ 63

instance (x : Int) : Decidable (isInt64 x) := by
  unfold isInt64; exact inferInstance

/-- Two's complement wrap-around into `int64`. -/
def wrap64 (x : Int) : Int := (x + 2 ^ 63) % 2 ^ 64 - 2 ^ 63

/-- Go's `a / b` on `int64`: panics on a zero divisor, truncates toward zero,
and wraps on overflow. -/
def goDiv (a b : Int) : Result Int :=
  if b = 0 then .panicked .integerDivideByZero else .ok (wrap64 (Int.tdiv a b))

/-- The constant `time.Second`, in nanoseconds. -/
def Second : Int := 1000000000

/-- The constant `time.Minute`, in nanoseconds. -/
def Minute : Int := 60 * Second

/-- A channel of `struct{}`: only the number of buffered elements matters. -/
structure Chan where
  /-- Capacity of the buffer, fixed by `make`. -/
  cap : Nat
  /-- Number of buffered permits. -/
  len : Nat
  /-- Whether `close` has been called on the channel. -/
  closed : Bool
  deriving DecidableEq, Repr

/-- Go's `make(chan struct{}, size)`: panics on a negative size, otherwise an
open, empty channel of that capacity (elements have size zero, so no
allocation limit applies). -/
def makeChan (size : Int) : Result Chan :=
  if size < 0 then .panicked .makechanSizeOutOfRange
  else .ok { cap := size.toNat, len := 0, closed := false }

/-! ## The limiter: state and steps -/

/-- Control point of the producer goroutine (lines 11-16). -/
inductive ProducerPC where
  /-- At line 13, before `duration / time.Duration(maxRequests)` is evaluated. -/
  | atSleep
  /-- Inside `time.Sleep`, which returns at instant `wake`. -/
  | sleeping (wake : Int)
  /-- At line 14, holding one permit to send. -/
  | atSend
  /-- The goroutine panicked, which terminates the program. -/
  | crashed (p : GoPanic)
  deriving DecidableEq, Repr

/-- State of a limiter: the variables captured by the goroutine's closure,
the clock, the channel, the producer's control point, and the history of
completed operations. -/
structure State where
  /-- Captured parameter `maxRequests`. -/
  maxRequests : Int
  /-- Captured parameter `duration`, in nanoseconds. -/
  duration : Int
  /-- Current instant, in nanoseconds since creation. -/
  now : Int
  /-- The channel `ch`. -/
  ch : Chan
  /-- Where the producer goroutine is. -/
  pc : ProducerPC
  /-- Number of completed calls of `time.Sleep`. -/
  slept : Nat
  /-- Instants of the completed sends, most recent first. -/
  enqTimes : List Int
  /-- Instants of the completed receives, most recent first. -/
  acqTimes : List Int
  deriving DecidableEq, Repr

/-- Number of completed sends. -/
def State.enqueued (s : State) : Nat := s.enqTimes.length

/-- Number of completed receives. -/
def State.acquired (s : State) : Nat := s.acqTimes.length

/-- The function `RateLimiter` (lines 8-18): `make` the channel, start the
goroutine at the top of its loop, return.  The result is the state of the
limiter at the moment the call returns, or the panic raised by the call. -/
def RateLimiter (maxRequests : Int) (duration : Int) : Result State :=
  match makeChan maxRequests with
  | .panicked p => .panicked p
  | .ok ch =>
    .ok { maxRequests := maxRequests, duration := duration, now := 0, ch := ch,
          pc := .atSleep, slept := 0, enqTimes := [], acqTimes := [] }

/-- The interval of line 13, `duration / time.Duration(maxRequests)`. -/
def interval (maxRequests : Int) (duration : Int) : Result Int :=
  goDiv duration maxRequests

/-- Atomic steps of the system. -/
inductive Label where
  /-- Producer, line 13: evaluate the interval and enter `time.Sleep`. -/
  | startSleep
  /-- Producer, line 13: `time.Sleep` returns. -/
  | wake
  /-- Producer, line 14: `ch <- struct{}{}` completes. -/
  | send
  /-- Consumer: a receive `<-limiter` completes. -/
  | recv
  /-- Time advances by `δ` while the producer is inside `time.Sleep`. -/
  | tick (δ : Int)
  /-- Time advances by `δ` while the producer is blocked on the send. -/
  | stall (δ : Int)
  deriving DecidableEq, Repr

/-- One step of the system; `none` when the step is not enabled.

* `time.Sleep d` returns immediately for `d ≤ 0` and after exactly `d`
  otherwise: the clock cannot pass the wake-up instant while the producer
  sleeps.
* A send on an open channel is enabled only while the buffer is not full;
  the clock advances at a pending send only while the buffer is full.
* A receive is enabled when the buffer is not empty; on a closed and empty
  channel it completes without a permit.
* A crashed producer has terminated the program: nothing is enabled.

With capacity zero the model has no rendezvous; the program never reaches a
send in that case, because line 13 panics first. -/
def step (s : State) : Label → Option State
  | .startSleep =>
    match s.pc with
    | .atSleep =>
      match interval s.maxRequests s.duration with
      | .panicked p => some { s with pc := .crashed p }
      | .ok iv => some { s with pc := .sleeping (s.now + max iv 0) }
    | _ => none
  | .wake =>
    match s.pc with
    | .sleeping w =>
      if w ≤ s.now then some { s with pc := .atSend, slept := s.slept + 1 } else none
    | _ => none
  | .send =>
    match s.pc with
    | .atSend =>
      if s.ch.closed then some { s with pc := .crashed .sendOnClosedChannel }
      else if s.ch.len < s.ch.cap then
        some { s with ch := { s.ch with len := s.ch.len + 1 }, pc := .atSleep,
                      enqTimes := s.now :: s.enqTimes }
      else none
    | _ => none
  | .recv =>
    match s.pc with
    | .crashed _ => none
    | _ =>
      if 0 < s.ch.len then
        some { s with ch := { s.ch with len := s.ch.len - 1 },
                      acqTimes := s.now :: s.acqTimes }
      else if s.ch.closed then some { s with acqTimes := s.now :: s.acqTimes }
      else none
  | .tick δ =>
    match s.pc with
    | .sleeping w => if 0 ≤ δ ∧ s.now + δ ≤ w then some { s with now := s.now + δ } else none
    | _ => none
  | .stall δ =>
    match s.pc with
    | .atSend =>
      if 0 ≤ δ ∧ s.ch.closed = false ∧ s.ch.len = s.ch.cap then
        some { s with now := s.now + δ }
      else none
    | _ => none

/-- Execute a sequence of steps; `none` as soon as one is not enabled. -/
def run (s : State) : List Label → Option State
  | [] => some s
  | l :: ls => (step s l).bind fun s' => run s' ls

/-- The states the limiter returned by `RateLimiter maxRequests duration` can
be in. -/
def Reachable (maxRequests duration : Int) (s : State) : Prop :=
  ∃ s₀ ls, RateLimiter maxRequests duration = .ok s₀ ∧ run s₀ ls = some s

/-- Instant of the `k`-th element (`k = 1, 2, ...`, oldest first) of a history
that is stored most recent first. -/
def nth (hist : List Int) (k : Nat) : Option Int :=
  if k = 0 then none else hist.reverse[k - 1]?

/-- Instant at which the `k`-th permit was enqueued (`k = 1, 2, ...`). -/
def State.enqAt (s : State) (k : Nat) : Option Int := nth s.enqTimes k

/-- Instant at which the `k`-th receive completed (`k = 1, 2, ...`). -/
def State.acqAt (s : State) (k : Nat) : Option Int := nth s.acqTimes k

/-! ## The consumer: a blocking receive, and `main` -/

/-- The steps the system takes while the consumer is blocked in one receive
`<-limiter` that completes as early as the producer allows: a buffered permit
is taken at once; otherwise the producer runs up to its next send (sleeping
out what remains of its pause), and the permit it sends is taken. -/
def acquireSteps (s : State) : List Label :=
  if 0 < s.ch.len then [.recv]
  else
    match s.pc with
    | .atSleep =>
      match interval s.maxRequests s.duration with
      | .ok iv => [.startSleep, .tick (max iv 0), .wake, .send, .recv]
      | .panicked _ => [.startSleep, .recv]
    | .sleeping w => [.tick (w - s.now), .wake, .send, .recv]
    | .atSend => [.send, .recv]
    | .crashed _ => [.recv]

/-- The steps the producer goroutine takes on its own, from wherever it is in
its loop, up to and including its next send `ch <- struct{}{}` (lines 13-14):
it sleeps out what remains of its pause and sends. -/
def produceSteps (s : State) : List Label :=
  match s.pc with
  | .atSleep =>
    match interval s.maxRequests s.duration with
    | .ok iv => [.startSleep, .tick (max iv 0), .wake, .send]
    | .panicked _ => [.startSleep, .send]
  | .sleeping w => [.tick (w - s.now), .wake, .send]
  | .atSend => [.send]
  | .crashed _ => [.send]

/-- One blocking receive `<-limiter`; `none` when it never completes. -/
def acquire (s : State) : Option State := run s (acquireSteps s)

/-- The receive `<-limiter` performed `k` times in a row. -/
def acquireN : Nat → State → Option State
  | 0, s => some s
  | k + 1, s => (acquireN k s).bind acquire

/-- The loop of `main` (lines 22-26) with `k` iterations left and loop
variable `i`: receive, then print `i+1` and `time.Now()`.  The printed lines
are collected as pairs. -/
def mainLoop : Nat → Nat → State → List (Nat × Int) → Option (State × List (Nat × Int))
  | 0, _, s, out => some (s, out)
  | k + 1, i, s, out =>
    match acquire s with
    | none => none
    | some s' => mainLoop k (i + 1) s' (out ++ [(i + 1, s'.now)])

/-- The program `main` (lines 20-27): the lines it prints, as pairs of the
request number and the instant, or `none` when it does not run to the end. -/
def main : Option (List (Nat × Int)) :=
  match RateLimiter 3 Minute with
  | .panicked _ => none
  | .ok limiter => (mainLoop 5 0 limiter []).map Prod.snd

/-! ## Invariants -/

/-- Untimed invariant of the limiter created by `RateLimiter n d`. -/
def Inv (n d : Int) (s : State) : Prop :=
  s.maxRequests = n ∧ s.duration = d ∧ (s.ch.cap : Int) = n ∧ s.ch.closed = false ∧
  s.ch.len ≤ s.ch.cap ∧ s.enqueued = s.acquired + s.ch.len ∧
  s.slept = s.enqueued + (if s.pc = .atSend then 1 else 0) ∧
  (∀ p, s.pc = .crashed p → n = 0)

/-- A history (most recent first) whose entries are at least `iv` apart,
the oldest at least `iv` after instant zero. -/
def Spaced (iv : Int) : List Int → Prop
  | [] => True
  | t :: hist => hist.headD 0 + iv ≤ t ∧ Spaced iv hist

/-- Timed invariant: enqueues are spaced by the interval `iv`, and the
producer's control point is consistent with the clock. -/
def TInv (iv : Int) (s : State) : Prop :=
  0 ≤ s.now ∧ Spaced iv s.enqTimes ∧ (∀ t ∈ s.enqTimes, t ≤ s.now) ∧
  (∀ w, s.pc = .sleeping w →
    s.now ≤ w ∧ s.enqTimes.headD 0 + iv ≤ w ∧ w ≤ s.now + max iv 0) ∧
  (s.pc = .atSend → s.enqTimes.headD 0 + iv ≤ s.now) ∧
  (∀ k t, s.acqAt k = some t → ∃ e, s.enqAt k = some e ∧ e ≤ t)

/-- Timed invariant of the runs in which the producer never waits at the
send: every enqueue happens on the grid of multiples of `iv`. -/
def EInv (iv : Int) (s : State) : Prop :=
  (∀ k t, s.enqAt k = some t → t = k * iv) ∧
  (s.pc = .atSleep → s.now = s.enqueued * iv) ∧
  (∀ w, s.pc = .sleeping w → w = (s.enqueued + 1) * iv ∧ s.now ≤ w) ∧
  (s.pc = .atSend → s.now = (s.enqueued + 1) * iv)

/-- Time the consumer has to wait, in a state with an empty buffer, for the
producer's next send: the rest of the producer's pause. -/
def remaining (iv : Int) (s : State) : Int :=
  match s.pc with
  | .atSleep => max iv 0
  | .sleeping w => w - s.now
  | _ => 0

/-! ## Concrete runs of `RateLimiter(3, time.Minute)` -/

/-- The limiter `RateLimiter(3, time.Minute)` at the moment the call returns. -/
def coldStart : State :=
  { maxRequests := 3, duration := Minute, now := 0,
    ch := { cap := 3, len := 0, closed := false },
    pc := .atSleep, slept := 0, enqTimes := [], acqTimes := [] }

/-- One round of the producer's loop with nothing in its way: sleep twenty
seconds, then send. -/
def producerRound : List Label := [.startSleep, .tick (20 * Second), .wake, .send]

/-- The producer running alone until it is blocked: three rounds fill the
buffer, a fourth sleep ends, and the fourth send finds the buffer full. -/
def producerAlone : List Label :=
  producerRound ++ producerRound ++ producerRound ++ [.startSleep, .tick (20 * Second), .wake]

/-- The steady state `RateLimiter(3, time.Minute)` reaches when nothing is
consumed: three permits buffered, the producer holding a fourth at the send. -/
def steadyState : State :=
  { maxRequests := 3, duration := Minute, now := 80 * Second,
    ch := { cap := 3, len := 3, closed := false },
    pc := .atSend, slept := 4,
    enqTimes := [60 * Second, 40 * Second, 20 * Second], acqTimes := [] }

/-- The state of `RateLimiter(3, time.Minute)` right after its third send,
when nothing has been consumed: the buffer has just become full. -/
def justFull : State :=
  { maxRequests := 3, duration := Minute, now := 60 * Second,
    ch := { cap := 3, len := 3, closed := false },
    pc := .atSleep, slept := 3,
    enqTimes := [60 * Second, 40 * Second, 20 * Second], acqTimes := [] }

/-- A run in which the consumer takes each permit as soon as it is sent. -/
def keepingUp : List Label :=
  producerRound ++ [.recv] ++ producerRound ++ [.recv]

/-- The state `keepingUp` leads to: two permits enqueued and acquired. -/
def afterTwo : State :=
  { maxRequests := 3, duration := Minute, now := 40 * Second,
    ch := { cap := 3, len := 0, closed := false },
    pc := .atSleep, slept := 2,
    enqTimes := [40 * Second, 20 * Second], acqTimes := [40 * Second, 20 * Second] }

/-- The state in which `main` leaves the limiter. -/
def afterMain : State :=
  { maxRequests := 3, duration := Minute, now := 100 * Second,
    ch := { cap := 3, len := 0, closed := false },
    pc := .atSleep, slept := 5,
    enqTimes := [100 * Second, 80 * Second, 60 * Second, 40 * Second, 20 * Second],
    acqTimes := [100 * Second, 80 * Second, 60 * Second, 40 * Second, 20 * Second] }

/-! ## Basic facts about runs and steps -/

theorem run_invariant_of (P : State → Prop) (L : Label → Prop)
    (hstep : ∀ s l s', L l → P s → step s l = some s' → P s') :
    ∀ (ls : List Label) (s s' : State), (∀ l ∈ ls, L l) → P s → run s ls = some s' → P s' := by
  intro ls
  induction ls with
  | nil =>
    intro s s' _ hs h
    simp only [run, Option.some.injEq] at h
    exact h ▸ hs
  | cons l ls ih =>
    intro s s' hL hs h
    simp only [run] at h
    cases hl : step s l with
    | none => simp [hl] at h
    | some s₁ =>
      simp only [hl, Option.some_bind] at h
      exact ih s₁ s' (fun l' hl' => hL l' (List.mem_cons_of_mem _ hl'))
        (hstep s l s₁ (hL l (List.mem_cons_self _ _)) hs hl) h

theorem run_invariant (P : State → Prop)
    (hstep : ∀ s l s', P s → step s l = some s' → P s') :
    ∀ (ls : List Label) (s s' : State), P s → run s ls = some s' → P s' := by
  intro ls s s' hs h
  exact run_invariant_of P (fun _ => True) (fun s l s' _ => hstep s l s') ls s s'
    (fun _ _ => trivial) hs h

theorem RateLimiter_ok_iff (n d : Int) (s₀ : State) :
    RateLimiter n d = .ok s₀ ↔
      0 ≤ n ∧ s₀ = { maxRequests := n, duration := d, now := 0,
                     ch := { cap := n.toNat, len := 0, closed := false },
                     pc := .atSleep, slept := 0, enqTimes := [], acqTimes := [] } := by
  unfold RateLimiter makeChan
  by_cases h : n < 0
  · simp [h]
  · simp only [h, if_false, Result.ok.injEq]
    constructor
    · intro e; exact ⟨by omega, e.symm⟩
    · intro e; exact e.2.symm

theorem interval_ok_iff (n d iv : Int) :
    interval n d = .ok iv ↔ n ≠ 0 ∧ iv = wrap64 (Int.tdiv d n) := by
  unfold interval goDiv
  by_cases h : n = 0
  · simp [h]
  · simp only [h, if_false, Result.ok.injEq, ne_eq, not_false_eq_true, true_and]
    exact eq_comm

theorem Inv_init (n d : Int) (s₀ : State) (h : RateLimiter n d = .ok s₀) : Inv n d s₀ := by
  obtain ⟨hn, rfl⟩ := (RateLimiter_ok_iff n d s₀).1 h
  simp [Inv, State.enqueued, State.acquired, Int.toNat_of_nonneg hn]


theorem step_startSleep_iff (s s' : State) :
    step s .startSleep = some s' ↔
      s.pc = .atSleep ∧
      ((∃ p, interval s.maxRequests s.duration = .panicked p ∧ s' = { s with pc := .crashed p }) ∨
       (∃ iv, interval s.maxRequests s.duration = .ok iv ∧
          s' = { s with pc := .sleeping (s.now + max iv 0) })) := by
  simp only [step]
  cases hpc : s.pc <;> simp
  cases hiv : interval s.maxRequests s.duration <;> simp [eq_comm]

theorem step_wake_iff (s s' : State) :
    step s .wake = some s' ↔
      ∃ w, s.pc = .sleeping w ∧ w ≤ s.now ∧ s' = { s with pc := .atSend, slept := s.slept + 1 } := by
  simp only [step]
  cases hpc : s.pc <;> simp
  intro _
  exact eq_comm

theorem step_send_iff (s s' : State) :
    step s .send = some s' ↔
      s.pc = .atSend ∧
      ((s.ch.closed = true ∧ s' = { s with pc := .crashed .sendOnClosedChannel }) ∨
       (s.ch.closed = false ∧ s.ch.len < s.ch.cap ∧
          s' = { s with ch := { s.ch with len := s.ch.len + 1 }, pc := .atSleep,
                        enqTimes := s.now :: s.enqTimes })) := by
  simp only [step]
  cases hpc : s.pc <;> simp
  cases hc : s.ch.closed <;> simp [eq_comm]

theorem step_recv_iff (s s' : State) :
    step s .recv = some s' ↔
      (∀ p, s.pc ≠ .crashed p) ∧
      ((0 < s.ch.len ∧ s' = { s with ch := { s.ch with len := s.ch.len - 1 },
                                     acqTimes := s.now :: s.acqTimes }) ∨
       (s.ch.len = 0 ∧ s.ch.closed = true ∧ s' = { s with acqTimes := s.now :: s.acqTimes })) := by
  obtain ⟨mr, du, now, ⟨cap, len, closed⟩, pc, sl, eq, aq⟩ := s
  cases pc
  case crashed p => simp [step]
  all_goals
    simp only [step]
    by_cases hl : 0 < len
    · have hne : len ≠ 0 := by omega
      simp only [hl, if_true, Option.some.injEq, hne, false_and, or_false, ne_eq,
        not_false_eq_true, implies_true, true_and, reduceCtorEq]
      exact eq_comm
    · have h0 : len = 0 := by omega
      subst h0
      cases closed
      · simp
      · simp only [lt_self_iff_false, if_false, if_true, Option.some.injEq, false_and,
          true_and, false_or, ne_eq, not_false_eq_true, implies_true, reduceCtorEq]
        exact eq_comm

theorem step_tick_iff (s s' : State) (δ : Int) :
    step s (.tick δ) = some s' ↔
      ∃ w, s.pc = .sleeping w ∧ 0 ≤ δ ∧ s.now + δ ≤ w ∧ s' = { s with now := s.now + δ } := by
  simp only [step]
  cases hpc : s.pc <;> simp
  constructor
  · rintro ⟨⟨a, b⟩, rfl⟩
    exact ⟨a, b, rfl⟩
  · rintro ⟨a, b, rfl⟩
    exact ⟨⟨a, b⟩, rfl⟩

theorem step_stall_iff (s s' : State) (δ : Int) :
    step s (.stall δ) = some s' ↔
      s.pc = .atSend ∧ 0 ≤ δ ∧ s.ch.closed = false ∧ s.ch.len = s.ch.cap ∧
        s' = { s with now := s.now + δ } := by
  simp only [step]
  cases hpc : s.pc <;> simp
  constructor
  · rintro ⟨⟨a, b, c⟩, rfl⟩
    exact ⟨a, b, c, rfl⟩
  · rintro ⟨a, b, c, rfl⟩
    exact ⟨⟨a, b, c⟩, rfl⟩

theorem Inv_step (n d : Int) (s : State) (l : Label) (s' : State)
    (hs : Inv n d s) (h : step s l = some s') : Inv n d s' := by
  obtain ⟨h1, h2, h3, h4, h5, h6, h7, h8⟩ := hs
  cases l with
  | startSleep =>
    obtain ⟨hpc, ⟨p, hp, rfl⟩ | ⟨iv, hiv, rfl⟩⟩ := (step_startSleep_iff s s').1 h
    · have : n = 0 := by
        by_contra hn
        simp [interval, goDiv, h1, hn] at hp
      simp_all [Inv, State.enqueued, State.acquired]
    · simp_all [Inv, State.enqueued, State.acquired]
  | wake =>
    obtain ⟨w, hpc, hw, rfl⟩ := (step_wake_iff s s').1 h
    simp_all [Inv, State.enqueued, State.acquired]
  | send =>
    obtain ⟨hpc, ⟨hc, rfl⟩ | ⟨hc, hlt, rfl⟩⟩ := (step_send_iff s s').1 h
    · simp_all
    · simp_all [Inv, State.enqueued, State.acquired]
      omega
  | recv =>
    obtain ⟨hpc, ⟨hc, rfl⟩ | ⟨_, hc, rfl⟩⟩ := (step_recv_iff s s').1 h
    · simp_all [Inv, State.enqueued, State.acquired]
      omega
    · simp_all
  | tick δ =>
    obtain ⟨w, hpc, _, _, rfl⟩ := (step_tick_iff s s' δ).1 h
    simp_all [Inv, State.enqueued, State.acquired]
  | stall δ =>
    obtain ⟨hpc, _, _, _, rfl⟩ := (step_stall_iff s s' δ).1 h
    simp_all [Inv, State.enqueued, State.acquired]

theorem Inv_of_reachable (n d : Int) (s : State) (h : Reachable n d s) : Inv n d s := by
  obtain ⟨s₀, ls, h0, hr⟩ := h
  exact run_invariant (Inv n d) (fun s l s' => Inv_step n d s l s') ls s₀ s (Inv_init n d s₀ h0) hr


/-! ## Histories -/

theorem nth_nil (k : Nat) : nth [] k = none := by
  simp [nth]

theorem nth_cons (t : Int) (l : List Int) (k : Nat) :
    nth (t :: l) k = if k = l.length + 1 then some t else nth l k := by
  unfold nth
  by_cases hk : k = 0
  · simp [hk]
  · simp only [hk, if_false, List.reverse_cons]
    by_cases h1 : k = l.length + 1
    · subst h1
      simp
    · simp only [h1, if_false]
      by_cases h2 : k - 1 < l.length
      · rw [List.getElem?_append_left (by simpa using h2)]
      · rw [List.getElem?_eq_none (by simp; omega), List.getElem?_eq_none (by simp; omega)]

theorem nth_some_bounds (l : List Int) (k : Nat) (t : Int) (h : nth l k = some t) :
    1 ≤ k ∧ k ≤ l.length := by
  induction l with
  | nil => simp [nth_nil] at h
  | cons a l ih =>
    rw [nth_cons] at h
    by_cases hk : k = l.length + 1
    · subst hk
      simp
    · simp only [hk, if_false] at h
      have := ih h
      simp only [List.length_cons]
      omega

theorem nth_of_bounds (l : List Int) (k : Nat) (h1 : 1 ≤ k) (h2 : k ≤ l.length) :
    ∃ t, nth l k = some t := by
  induction l with
  | nil => simp at h2; omega
  | cons a l ih =>
    rw [nth_cons]
    by_cases hk : k = l.length + 1
    · exact ⟨a, by simp [hk]⟩
    · simp only [hk, if_false]
      exact ih (by simp only [List.length_cons] at h2; omega)

theorem nth_mem (l : List Int) (k : Nat) (t : Int) (h : nth l k = some t) : t ∈ l := by
  induction l with
  | nil => simp [nth_nil] at h
  | cons a l ih =>
    rw [nth_cons] at h
    by_cases hk : k = l.length + 1
    · simp only [hk, if_true, Option.some.injEq] at h
      simp [h]
    · simp only [hk, if_false] at h
      exact List.mem_cons_of_mem _ (ih h)

theorem nth_length (l : List Int) (h : l ≠ []) : nth l l.length = some (l.headD 0) := by
  cases l with
  | nil => exact absurd rfl h
  | cons a l => simp [nth_cons]

theorem Spaced_succ (iv : Int) (l : List Int) (hs : Spaced iv l) (k : Nat) (t t' : Int)
    (h : nth l k = some t) (h' : nth l (k + 1) = some t') : t + iv ≤ t' := by
  induction l with
  | nil => simp [nth_nil] at h
  | cons a l ih =>
    obtain ⟨ha, hl⟩ := hs
    rw [nth_cons] at h h'
    by_cases hk : k = l.length
    · subst hk
      simp only [add_left_inj, if_true, Option.some.injEq] at h'
      simp only [self_eq_add_right, one_ne_zero, if_false] at h
      have hne : l ≠ [] := by
        rintro rfl
        simp [nth_nil] at h
      rw [nth_length l hne, Option.some.injEq] at h
      omega
    · have hk' : ¬ k + 1 = l.length + 1 := by omega
      simp only [hk', if_false] at h'
      have hb := nth_some_bounds l (k + 1) t' h'
      have hk2 : ¬ k = l.length + 1 := by omega
      simp only [hk2, if_false] at h
      exact ih hl h h'

theorem Spaced_first (iv : Int) (l : List Int) (hs : Spaced iv l) (t : Int)
    (h : nth l 1 = some t) : iv ≤ t := by
  induction l with
  | nil => simp [nth_nil] at h
  | cons a l ih =>
    obtain ⟨ha, hl⟩ := hs
    rw [nth_cons] at h
    by_cases hk : 1 = l.length + 1
    · rw [if_pos hk, Option.some.injEq] at h
      have : l = [] := List.length_eq_zero.1 (by omega)
      subst this
      simp only [List.headD_nil] at ha
      omega
    · rw [if_neg hk] at h
      exact ih hl h

theorem Spaced_nth (iv : Int) (l : List Int) (hs : Spaced iv l) :
    ∀ (k : Nat) (t : Int), nth l k = some t → k * iv ≤ t := by
  intro k
  induction k with
  | zero => intro t h; simp [nth] at h
  | succ k ih =>
    intro t h
    by_cases hk : k = 0
    · subst hk
      have := Spaced_first iv l hs t h
      simpa using this
    · have hb := nth_some_bounds l (k + 1) t h
      obtain ⟨t₀, h₀⟩ := nth_of_bounds l k (by omega) (by omega)
      have h1 := ih t₀ h₀
      have h2 := Spaced_succ iv l hs k t₀ t h₀ h
      push_cast
      linarith

/-! ## The timed invariant -/

theorem headD_le_now (iv : Int) (s : State) (hT : TInv iv s) : s.enqTimes.headD 0 ≤ s.now := by
  obtain ⟨h0, _, hle, _⟩ := hT
  cases he : s.enqTimes with
  | nil => simpa using h0
  | cons a l =>
    simp only [List.headD_cons]
    exact hle a (by simp [he])

theorem TInv_init (n d iv : Int) (s₀ : State) (h : RateLimiter n d = .ok s₀) : TInv iv s₀ := by
  obtain ⟨_, rfl⟩ := (RateLimiter_ok_iff n d s₀).1 h
  simp [TInv, Spaced, State.acqAt, State.enqAt, nth_nil]

theorem TInv_step (n d iv : Int) (hiv : interval n d = .ok iv) (s : State) (l : Label)
    (s' : State) (hI : Inv n d s) (hT : TInv iv s) (h : step s l = some s') : TInv iv s' := by
  have hhd := headD_le_now iv s hT
  obtain ⟨i1, i2, i3, i4, i5, i6, i7, i8⟩ := hI
  obtain ⟨t1, t2, t3, t4, t5, t6⟩ := hT
  cases l with
  | startSleep =>
    obtain ⟨hpc, ⟨p, hp, rfl⟩ | ⟨iv', hiv', rfl⟩⟩ := (step_startSleep_iff s s').1 h
    · refine ⟨t1, t2, t3, ?_, ?_, t6⟩ <;> simp
    · rw [i1, i2, hiv, Result.ok.injEq] at hiv'
      subst hiv'
      refine ⟨t1, t2, t3, ?_, ?_, t6⟩
      · intro w hw
        simp only [ProducerPC.sleeping.injEq] at hw
        subst hw
        simp only
        omega
      · simp
  | wake =>
    obtain ⟨w, hpc, hw, rfl⟩ := (step_wake_iff s s').1 h
    refine ⟨t1, t2, t3, ?_, ?_, t6⟩
    · simp
    · intro _
      have := t4 w hpc
      simp only
      omega
  | send =>
    obtain ⟨hpc, ⟨hc, rfl⟩ | ⟨hc, hlt, rfl⟩⟩ := (step_send_iff s s').1 h
    · simp [i4] at hc
    · refine ⟨t1, ⟨?_, t2⟩, ?_, ?_, ?_, ?_⟩
      · exact t5 hpc
      · intro t ht
        simp only [List.mem_cons] at ht
        rcases ht with rfl | ht
        · exact le_refl _
        · exact t3 t ht
      · simp
      · simp
      · intro k t hk
        obtain ⟨e, he, hle⟩ := t6 k t hk
        refine ⟨e, ?_, hle⟩
        have hb := nth_some_bounds _ _ _ he
        simp only [State.enqAt, nth_cons]
        rw [if_neg (by omega)]
        exact he
  | recv =>
    obtain ⟨hpc, ⟨hc, rfl⟩ | ⟨_, hc, rfl⟩⟩ := (step_recv_iff s s').1 h
    · refine ⟨t1, t2, t3, t4, t5, ?_⟩
      intro k t hk
      simp only [State.acqAt, nth_cons] at hk
      by_cases hkl : k = s.acqTimes.length + 1
      · rw [if_pos hkl, Option.some.injEq] at hk
        subst hk
        simp only [State.enqueued, State.acquired] at i6
        obtain ⟨e, he⟩ := nth_of_bounds s.enqTimes k (by omega) (by omega)
        exact ⟨e, he, t3 e (nth_mem _ _ _ he)⟩
      · rw [if_neg hkl] at hk
        exact t6 k t hk
    · simp [i4] at hc
  | tick δ =>
    obtain ⟨w, hpc, hδ, hle, rfl⟩ := (step_tick_iff s s' δ).1 h
    have := t4 w hpc
    refine ⟨by simp only; omega, t2, ?_, ?_, ?_, t6⟩
    · intro t ht
      have := t3 t ht
      simp only
      omega
    · intro w' hw'
      simp only at hw'
      rw [hpc, ProducerPC.sleeping.injEq] at hw'
      subst hw'
      simp only
      omega
    · simp [hpc]
  | stall δ =>
    obtain ⟨hpc, hδ, _, _, rfl⟩ := (step_stall_iff s s' δ).1 h
    have := t5 hpc
    refine ⟨by simp only; omega, t2, ?_, ?_, ?_, t6⟩
    · intro t ht
      have := t3 t ht
      simp only
      omega
    · simp [hpc]
    · intro _
      simp only
      omega

theorem invariants_of_run (n d iv : Int) (hiv : interval n d = .ok iv) (s₀ : State)
    (h0 : RateLimiter n d = .ok s₀) (ls : List Label) (s : State) (hr : run s₀ ls = some s) :
    Inv n d s ∧ TInv iv s := by
  refine run_invariant (fun s => Inv n d s ∧ TInv iv s) ?_ ls s₀ s
    ⟨Inv_init n d s₀ h0, TInv_init n d iv s₀ h0⟩ hr
  intro s l s' hs h
  exact ⟨Inv_step n d s l s' hs.1 h, TInv_step n d iv hiv s l s' hs.1 hs.2 h⟩

/-! ## Runs in which the producer never waits at the send -/

theorem EInv_init (n d iv : Int) (s₀ : State) (h : RateLimiter n d = .ok s₀) : EInv iv s₀ := by
  obtain ⟨_, rfl⟩ := (RateLimiter_ok_iff n d s₀).1 h
  simp [EInv, State.enqAt, State.enqueued, nth_nil]

theorem EInv_step (n d iv : Int) (hiv : interval n d = .ok iv) (hnn : 0 ≤ iv) (s : State)
    (l : Label) (s' : State) (hL : ∀ δ, l = .stall δ → δ = 0) (hI : Inv n d s)
    (hE : EInv iv s) (h : step s l = some s') : EInv iv s' := by
  obtain ⟨i1, i2, i3, i4, i5, i6, i7, i8⟩ := hI
  obtain ⟨e1, e2, e3, e4⟩ := hE
  cases l with
  | startSleep =>
    obtain ⟨hpc, ⟨p, hp, rfl⟩ | ⟨iv', hiv', rfl⟩⟩ := (step_startSleep_iff s s').1 h
    · refine ⟨e1, ?_, ?_, ?_⟩ <;> simp
    · rw [i1, i2, hiv, Result.ok.injEq] at hiv'
      subst hiv'
      refine ⟨e1, ?_, ?_, ?_⟩
      · simp
      · intro w hw
        simp only [ProducerPC.sleeping.injEq] at hw
        subst hw
        have := e2 hpc
        simp only [State.enqueued] at this ⊢
        rw [max_eq_left hnn, this]
        constructor
        · ring
        · linarith
      · simp
  | wake =>
    obtain ⟨w, hpc, hw, rfl⟩ := (step_wake_iff s s').1 h
    refine ⟨e1, ?_, ?_, ?_⟩
    · simp
    · simp
    · intro _
      obtain ⟨hw1, hw2⟩ := e3 w hpc
      simp only [State.enqueued] at hw1 ⊢
      linarith
  | send =>
    obtain ⟨hpc, ⟨hc, rfl⟩ | ⟨hc, hlt, rfl⟩⟩ := (step_send_iff s s').1 h
    · simp [i4] at hc
    · have hnow := e4 hpc
      simp only [State.enqueued] at hnow
      refine ⟨?_, ?_, ?_, ?_⟩
      · intro k t hk
        simp only [State.enqAt, nth_cons] at hk
        by_cases hkl : k = s.enqTimes.length + 1
        · rw [if_pos hkl, Option.some.injEq] at hk
          subst hk
          rw [hkl, hnow]
          push_cast
          ring
        · rw [if_neg hkl] at hk
          exact e1 k t hk
      · intro _
        simp only [State.enqueued, List.length_cons]
        rw [hnow]
        push_cast
        ring
      · simp
      · simp
  | recv =>
    obtain ⟨hpc, ⟨hc, rfl⟩ | ⟨_, hc, rfl⟩⟩ := (step_recv_iff s s').1 h
    · exact ⟨e1, e2, e3, e4⟩
    · simp [i4] at hc
  | tick δ =>
    obtain ⟨w, hpc, hδ, hle, rfl⟩ := (step_tick_iff s s' δ).1 h
    refine ⟨e1, ?_, ?_, ?_⟩
    · simp [hpc]
    · intro w' hw'
      simp only at hw'
      rw [hpc, ProducerPC.sleeping.injEq] at hw'
      subst hw'
      exact ⟨(e3 w hpc).1, hle⟩
    · simp [hpc]
  | stall δ =>
    obtain ⟨hpc, hδ, _, _, rfl⟩ := (step_stall_iff s s' δ).1 h
    have hz := hL δ rfl
    subst hz
    refine ⟨e1, ?_, ?_, ?_⟩
    · simp [hpc]
    · simp [hpc]
    · intro _
      simpa using e4 hpc

theorem EInv_of_run (n d iv : Int) (hiv : interval n d = .ok iv) (hnn : 0 ≤ iv) (s₀ : State)
    (h0 : RateLimiter n d = .ok s₀) (ls : List Label) (hls : ∀ δ, Label.stall δ ∈ ls → δ = 0)
    (s : State) (hr : run s₀ ls = some s) : EInv iv s := by
  have key := run_invariant_of (fun s => Inv n d s ∧ EInv iv s) (fun l => ∀ δ, l = .stall δ → δ = 0)
    (fun s l s' hL hs h =>
      ⟨Inv_step n d s l s' hs.1 h, EInv_step n d iv hiv hnn s l s' hL hs.1 hs.2 h⟩)
    ls s₀ s (fun l hl δ hδ => hls δ (hδ ▸ hl)) ⟨Inv_init n d s₀ h0, EInv_init n d iv s₀ h0⟩ hr
  exact key.2

/-! ## Interval arithmetic -/

theorem wrap64_of_isInt64 (x : Int) (h : isInt64 x) : wrap64 x = x := by
  unfold isInt64 at h
  unfold wrap64
  omega

theorem tdiv_bounds_nonneg (n d : Int) (hn : 0 < n) (hd : 0 ≤ d) :
    0 ≤ Int.tdiv d n ∧ n * Int.tdiv d n ≤ d ∧ d < n * Int.tdiv d n + n := by
  rw [Int.tdiv_eq_ediv hd (le_of_lt hn)]
  have h1 := Int.ediv_add_emod d n
  have h2 := Int.emod_nonneg d (ne_of_gt hn)
  have h3 := Int.emod_lt_of_pos d hn
  have h4 : 0 ≤ d / n := Int.ediv_nonneg hd (le_of_lt hn)
  refine ⟨h4, ?_, ?_⟩ <;> linarith

theorem tdiv_bounds_nonpos (n d : Int) (hn : 0 < n) (hd : d ≤ 0) :
    Int.tdiv d n ≤ 0 ∧ d ≤ n * Int.tdiv d n ∧ n * Int.tdiv d n < d + n := by
  have hneg : Int.tdiv d n = -Int.tdiv (-d) n := by
    rw [Int.neg_tdiv, neg_neg]
  have := tdiv_bounds_nonneg n (-d) hn (by omega)
  rw [hneg]
  refine ⟨by omega, ?_, ?_⟩ <;> linarith

theorem interval_of_pos (n d : Int) (hn : 0 < n) (hd : isInt64 d) :
    interval n d = .ok (Int.tdiv d n) := by
  have hw : isInt64 (Int.tdiv d n) := by
    unfold isInt64 at hd ⊢
    by_cases h0 : 0 ≤ d
    · have := tdiv_bounds_nonneg n d hn h0
      constructor
      · omega
      · nlinarith
    · have := tdiv_bounds_nonpos n d hn (by omega)
      constructor
      · nlinarith
      · omega
  rw [interval_ok_iff]
  exact ⟨ne_of_gt hn, (wrap64_of_isInt64 _ hw).symm⟩

/-! ## The blocking receive -/

theorem run_append (s : State) (l₁ l₂ : List Label) :
    run s (l₁ ++ l₂) = (run s l₁).bind fun s' => run s' l₂ := by
  induction l₁ generalizing s with
  | nil => simp [run]
  | cons l l₁ ih =>
    simp only [List.cons_append, run]
    cases step s l with
    | none => simp
    | some s₁ => simp [ih]

theorem Reachable_run (n d : Int) (s s' : State) (ls : List Label) (hs : Reachable n d s)
    (h : run s ls = some s') : Reachable n d s' := by
  obtain ⟨s₀, ls₀, h0, hr⟩ := hs
  refine ⟨s₀, ls₀ ++ ls, h0, ?_⟩
  rw [run_append, hr]
  exact h

theorem Reachable_acquire (n d : Int) (s s' : State) (hs : Reachable n d s)
    (h : acquire s = some s') : Reachable n d s' :=
  Reachable_run n d s s' (acquireSteps s) hs h

theorem Reachable_acquireN (n d : Int) (k : Nat) (s s' : State) (hs : Reachable n d s)
    (h : acquireN k s = some s') : Reachable n d s' := by
  induction k generalizing s' with
  | zero =>
    simp only [acquireN, Option.some.injEq] at h
    exact h ▸ hs
  | succ k ih =>
    simp only [acquireN] at h
    cases hk : acquireN k s with
    | none => simp [hk] at h
    | some s₁ =>
      simp only [hk, Option.some_bind] at h
      exact Reachable_acquire n d s₁ s' (ih s₁ hk) h

theorem invariants_of_reachable (n d iv : Int) (hiv : interval n d = .ok iv) (s : State)
    (h : Reachable n d s) : Inv n d s ∧ TInv iv s := by
  obtain ⟨s₀, ls, h0, hr⟩ := h
  exact invariants_of_run n d iv hiv s₀ h0 ls s hr

theorem acquire_buffered (s : State) (hpc : ∀ p, s.pc ≠ .crashed p) (hl : 0 < s.ch.len) :
    acquire s = some { s with ch := { s.ch with len := s.ch.len - 1 },
                              acqTimes := s.now :: s.acqTimes } := by
  have h : step s .recv = some { s with ch := { s.ch with len := s.ch.len - 1 },
                                          acqTimes := s.now :: s.acqTimes } :=
    (step_recv_iff s _).2 ⟨hpc, Or.inl ⟨hl, rfl⟩⟩
  simp [acquire, acquireSteps, hl, run, h]

theorem acquire_empty (n d iv : Int) (hn : 0 < n) (hiv : interval n d = .ok iv) (s : State)
    (hI : Inv n d s) (hT : TInv iv s) (hl : s.ch.len = 0) :
    acquire s = some { s with now := s.now + remaining iv s, pc := .atSleep,
                              slept := s.slept + (if s.pc = .atSend then 0 else 1),
                              enqTimes := (s.now + remaining iv s) :: s.enqTimes,
                              acqTimes := (s.now + remaining iv s) :: s.acqTimes } := by
  obtain ⟨i1, i2, i3, i4, i5, i6, i7, i8⟩ := hI
  obtain ⟨t1, t2, t3, t4, t5, t6⟩ := hT
  obtain ⟨mr, du, now, ⟨cap, len, closed⟩, pc, sl, eq, aq⟩ := s
  simp only at i1 i2 i3 i4 hl t4
  subst i1 i2 i4 hl
  have hcap : 0 < cap := by omega
  cases pc with
  | atSleep =>
    simp [acquire, acquireSteps, run, step, hiv, remaining, hcap]
  | sleeping w =>
    have := t4 w rfl
    simp [acquire, acquireSteps, run, step, remaining, hcap, this.1]
  | atSend =>
    simp [acquire, acquireSteps, run, step, remaining, hcap]
  | crashed p =>
    have := i8 p rfl
    omega

theorem acquireN_drain (k : Nat) (s : State) (hpc : ∀ p, s.pc ≠ .crashed p)
    (hk : k ≤ s.ch.len) :
    acquireN k s = some { s with ch := { s.ch with len := s.ch.len - k },
                                 acqTimes := List.replicate k s.now ++ s.acqTimes } := by
  induction k with
  | zero => simp [acquireN]
  | succ k ih =>
    simp only [acquireN]
    rw [ih (by omega), Option.some_bind]
    have hb := acquire_buffered
      { s with ch := { s.ch with len := s.ch.len - k },
               acqTimes := List.replicate k s.now ++ s.acqTimes } hpc
      (by show 0 < s.ch.len - k; omega)
    rw [hb]
    simp only [Option.some.injEq, List.replicate_succ, List.cons_append]
    congr 2

/-- No schedule completes a receive beyond the buffered permits before the producer's
pause is over: a run from `s` that acquires more permits than `s` has buffered ends no
earlier than `s.now + remaining iv s`. -/
theorem recv_not_before (n d iv : Int) (hiv : interval n d = .ok iv) (s : State)
    (hI : Inv n d s) (ls : List Label) (s' : State) (hr : run s ls = some s')
    (hacq : s.acquired + s.ch.len < s'.acquired) : s.now + remaining iv s ≤ s'.now := by
  have key := run_invariant
    (fun x => Inv n d x ∧ s.now ≤ x.now ∧
      (s.now + remaining iv s ≤ x.now ∨
        (x.enqueued = s.enqueued ∧ (x.pc = .atSleep → s.pc = .atSleep ∧ x.now = s.now) ∧
          (∀ w, x.pc = .sleeping w → w = s.now + remaining iv s) ∧ x.pc ≠ .atSend)))
    ?_ ls s s' ?_ hr
  · obtain ⟨hI', _, h | ⟨he, _⟩⟩ := key
    · exact h
    · obtain ⟨_, _, _, _, _, j6, _⟩ := hI'
      obtain ⟨_, _, _, _, _, i6, _⟩ := hI
      omega
  · intro x l x' ⟨hx, hmono, hdisj⟩ h
    have hx' := Inv_step n d x l x' hx h
    obtain ⟨i1, i2, i3, i4, i5, i6, i7, i8⟩ := hx
    refine ⟨hx', ?_⟩
    cases l with
    | startSleep =>
      obtain ⟨hpc, ⟨p, hp, rfl⟩ | ⟨iv', hiv', rfl⟩⟩ := (step_startSleep_iff x x').1 h
      · refine ⟨hmono, ?_⟩
        rcases hdisj with h1 | ⟨h1, h2, h3, h4⟩
        · exact Or.inl h1
        · exact Or.inr ⟨h1, by simp, by simp, by simp⟩
      · rw [i1, i2, hiv, Result.ok.injEq] at hiv'
        subst hiv'
        refine ⟨hmono, ?_⟩
        rcases hdisj with h1 | ⟨h1, h2, h3, h4⟩
        · exact Or.inl h1
        · refine Or.inr ⟨h1, by simp, ?_, by simp⟩
          intro w hw
          simp only [ProducerPC.sleeping.injEq] at hw
          obtain ⟨hs1, hs2⟩ := h2 hpc
          simp only [remaining, hs1]
          omega
    | wake =>
      obtain ⟨w, hpc, hw, rfl⟩ := (step_wake_iff x x').1 h
      refine ⟨hmono, Or.inl ?_⟩
      rcases hdisj with h1 | ⟨h1, h2, h3, h4⟩
      · exact h1
      · have := h3 w hpc
        simp only
        omega
    | send =>
      obtain ⟨hpc, ⟨hc, rfl⟩ | ⟨hc, hlt, rfl⟩⟩ := (step_send_iff x x').1 h
      · simp [i4] at hc
      · refine ⟨hmono, Or.inl ?_⟩
        rcases hdisj with h1 | ⟨h1, h2, h3, h4⟩
        · exact h1
        · exact absurd hpc h4
    | recv =>
      obtain ⟨hpc, ⟨hc, rfl⟩ | ⟨_, hc, rfl⟩⟩ := (step_recv_iff x x').1 h
      · exact ⟨hmono, hdisj⟩
      · simp [i4] at hc
    | tick δ =>
      obtain ⟨w, hpc, hδ, hle, rfl⟩ := (step_tick_iff x x' δ).1 h
      refine ⟨by simp only; omega, ?_⟩
      rcases hdisj with h1 | ⟨h1, h2, h3, h4⟩
      · exact Or.inl (by simp only; omega)
      · exact Or.inr ⟨h1, by simp [hpc], h3, h4⟩
    | stall δ =>
      obtain ⟨hpc, hδ, _, _, rfl⟩ := (step_stall_iff x x' δ).1 h
      refine ⟨by simp only; omega, ?_⟩
      rcases hdisj with h1 | ⟨h1, h2, h3, h4⟩
      · exact Or.inl (by simp only; omega)
      · exact absurd hpc h4
  · refine ⟨hI, le_refl _, ?_⟩
    cases hp : s.pc with
    | atSleep => exact Or.inr ⟨rfl, fun _ => ⟨rfl, rfl⟩, by simp [hp], by simp [hp]⟩
    | sleeping w =>
      refine Or.inr ⟨rfl, by simp [hp], ?_, by simp [hp]⟩
      intro w' hw'
      simp only [ProducerPC.sleeping.injEq] at hw'
      simp only [remaining, hp]
      omega
    | atSend => exact Or.inl (by simp [remaining, hp])
    | crashed p => exact Or.inl (by simp [remaining, hp])

/-! ## Progress of the producer -/

theorem remaining_bounds (iv : Int) (hnn : 0 ≤ iv) (s : State) (hT : TInv iv s) :
    0 ≤ remaining iv s ∧ remaining iv s ≤ iv := by
  obtain ⟨_, _, _, t4, _, _⟩ := hT
  unfold remaining
  cases hp : s.pc with
  | atSleep => simp [hnn]
  | sleeping w =>
    have := t4 w hp
    rw [max_eq_left hnn] at this
    simp only
    omega
  | atSend => exact ⟨le_refl _, hnn⟩
  | crashed p => exact ⟨le_refl _, hnn⟩

/-- While the buffer has room, the producer on its own completes its next send, at the
end of its current pause. -/
theorem produce_next (n d iv : Int) (hn : 0 < n) (hiv : interval n d = .ok iv) (s : State)
    (hI : Inv n d s) (hT : TInv iv s) (hl : s.ch.len < s.ch.cap) :
    run s (produceSteps s) =
      some { s with now := s.now + remaining iv s,
                    ch := { s.ch with len := s.ch.len + 1 }, pc := .atSleep,
                    slept := s.slept + (if s.pc = .atSend then 0 else 1),
                    enqTimes := (s.now + remaining iv s) :: s.enqTimes } := by
  obtain ⟨i1, i2, i3, i4, i5, i6, i7, i8⟩ := hI
  obtain ⟨t1, t2, t3, t4, t5, t6⟩ := hT
  obtain ⟨mr, du, now, ⟨cap, len, closed⟩, pc, sl, eq, aq⟩ := s
  simp only at i1 i2 i3 i4 hl t4
  subst i1 i2 i4
  cases pc with
  | atSleep =>
    simp [produceSteps, run, step, hiv, remaining, hl]
  | sleeping w =>
    have := t4 w rfl
    simp [produceSteps, run, step, remaining, hl, this.1]
  | atSend =>
    simp [produceSteps, run, step, remaining, hl]
  | crashed p =>
    have := i8 p rfl
    omega

theorem produceSteps_labels (s : State) :
    ∀ l ∈ produceSteps s, l ≠ .recv ∧ ∀ δ, l ≠ .stall δ := by
  intro l hl
  unfold produceSteps at hl
  cases hp : s.pc with
  | atSleep =>
    rw [hp] at hl
    cases hi : interval s.maxRequests s.duration with
    | ok iv =>
      rw [hi] at hl
      simp only [List.mem_cons, List.mem_singleton, List.not_mem_nil, or_false] at hl
      rcases hl with rfl | rfl | rfl | rfl <;> simp
    | panicked p =>
      rw [hi] at hl
      simp only [List.mem_cons, List.mem_singleton, List.not_mem_nil, or_false] at hl
      rcases hl with rfl | rfl <;> simp
  | sleeping w =>
    rw [hp] at hl
    simp only [List.mem_cons, List.mem_singleton, List.not_mem_nil, or_false] at hl
    rcases hl with rfl | rfl | rfl <;> simp
  | atSend =>
    rw [hp] at hl
    simp only [List.mem_cons, List.mem_singleton, List.not_mem_nil, or_false] at hl
    subst hl
    simp
  | crashed p =>
    rw [hp] at hl
    simp only [List.mem_cons, List.mem_singleton, List.not_mem_nil, or_false] at hl
    subst hl
    simp

/-- With a consumer that takes every permit as it is sent, the producer enqueues any
number of permits without ever waiting at the send. -/
theorem keepUp_run (n d iv : Int) (hn : 0 < n) (hiv : interval n d = .ok iv) (s₀ : State)
    (h0 : RateLimiter n d = .ok s₀) :
    ∀ k : Nat, ∃ ls s, run s₀ ls = some s ∧ (∀ δ, Label.stall δ ∉ ls) ∧
      s.pc = .atSleep ∧ s.ch.len = 0 ∧ s.enqueued = k := by
  intro k
  induction k with
  | zero =>
    refine ⟨[], s₀, rfl, by simp, ?_, ?_, ?_⟩
    all_goals
      obtain ⟨_, rfl⟩ := (RateLimiter_ok_iff n d s₀).1 h0
      rfl
  | succ k ih =>
    obtain ⟨ls, s, hrun, hns, hpc, hlen, henq⟩ := ih
    obtain ⟨hI, hT⟩ := invariants_of_run n d iv hiv s₀ h0 ls s hrun
    obtain ⟨s', hacq, hpc', hlen', henq'⟩ : ∃ s', acquire s = some s' ∧ s'.pc = .atSleep ∧
        s'.ch.len = 0 ∧ s'.enqTimes = (s.now + remaining iv s) :: s.enqTimes :=
      ⟨_, acquire_empty n d iv hn hiv s hI hT hlen, rfl, hlen, rfl⟩
    have hsteps : acquireSteps s = [.startSleep, .tick (max iv 0), .wake, .send, .recv] := by
      obtain ⟨i1, i2, _⟩ := hI
      simp [acquireSteps, hlen, hpc, i1, i2, hiv]
    refine ⟨ls ++ acquireSteps s, s', ?_, ?_, hpc', hlen', ?_⟩
    · rw [run_append, hrun]
      exact hacq
    · intro δ hδ
      rw [List.mem_append] at hδ
      rcases hδ with h | h
      · exact hns δ h
      · rw [hsteps] at h
        simp at h
    · simp only [State.enqueued] at henq ⊢
      rw [henq', List.length_cons, henq]

/-- The producer never stops: from every reachable state some continuation enqueues any
further number of permits (the consumer freeing a slot whenever the buffer is full). -/
theorem produce_more (n d iv : Int) (hn : 0 < n) (hiv : interval n d = .ok iv) (s : State)
    (hs : Reachable n d s) :
    ∀ m : Nat, ∃ ls s', run s ls = some s' ∧ s'.enqueued = s.enqueued + m := by
  intro m
  induction m with
  | zero => exact ⟨[], s, rfl, rfl⟩
  | succ m ih =>
    obtain ⟨ls, s₁, hrun, henq⟩ := ih
    have hr1 : Reachable n d s₁ := Reachable_run n d s s₁ ls hs hrun
    obtain ⟨hI1, hT1⟩ := invariants_of_reachable n d iv hiv s₁ hr1
    by_cases hl : s₁.ch.len < s₁.ch.cap
    · obtain ⟨s₂, h2, he2⟩ : ∃ s₂, run s₁ (produceSteps s₁) = some s₂ ∧
          s₂.enqTimes = (s₁.now + remaining iv s₁) :: s₁.enqTimes :=
        ⟨_, produce_next n d iv hn hiv s₁ hI1 hT1 hl, rfl⟩
      refine ⟨ls ++ produceSteps s₁, s₂, ?_, ?_⟩
      · rw [run_append, hrun]
        exact h2
      · simp only [State.enqueued] at henq ⊢
        rw [he2, List.length_cons, henq]
        omega
    · obtain ⟨i1, i2, i3, i4, i5, i6, i7, i8⟩ := hI1
      have hpc : ∀ p, s₁.pc ≠ .crashed p := fun p hp => (ne_of_gt hn) (i8 p hp)
      have hpos : 0 < s₁.ch.len := by omega
      obtain ⟨s₂, h2, hlen2, hcap2, he2⟩ : ∃ s₂, step s₁ .recv = some s₂ ∧
          s₂.ch.len = s₁.ch.len - 1 ∧ s₂.ch.cap = s₁.ch.cap ∧ s₂.enqTimes = s₁.enqTimes :=
        ⟨_, (step_recv_iff s₁ _).2 ⟨hpc, Or.inl ⟨hpos, rfl⟩⟩, rfl, rfl, rfl⟩
      have hrun2 : run s₁ [.recv] = some s₂ := by
        simp [run, h2]
      have hr2 : Reachable n d s₂ := Reachable_run n d s₁ s₂ [.recv] hr1 hrun2
      obtain ⟨hI2, hT2⟩ := invariants_of_reachable n d iv hiv s₂ hr2
      obtain ⟨s₃, h3, he3⟩ : ∃ s₃, run s₂ (produceSteps s₂) = some s₃ ∧
          s₃.enqTimes = (s₂.now + remaining iv s₂) :: s₂.enqTimes :=
        ⟨_, produce_next n d iv hn hiv s₂ hI2 hT2 (by omega), rfl⟩
      refine ⟨ls ++ ([.recv] ++ produceSteps s₂), s₃, ?_, ?_⟩
      · rw [run_append, hrun, Option.some_bind, run_append, hrun2]
        exact h3
      · simp only [State.enqueued] at henq ⊢
        rw [he3, List.length_cons, he2, henq]
        omega

/-! ## Reachability of the concrete states -/

theorem coldStart_eq : RateLimiter 3 Minute = .ok coldStart := by decide

theorem steadyState_run : run coldStart producerAlone = some steadyState := by decide

theorem justFull_run :
    run coldStart (producerRound ++ producerRound ++ producerRound) = some justFull := by decide

theorem steadyState_reachable : Reachable 3 Minute steadyState :=
  ⟨coldStart, producerAlone, coldStart_eq, steadyState_run⟩

theorem justFull_reachable : Reachable 3 Minute justFull :=
  ⟨coldStart, _, coldStart_eq, justFull_run⟩

/-- With `maxRequests = 0` the limiter is returned, and the producer's first
statement, the division of line 13, panics. -/
theorem zero_maxRequests_producer_panics (d : Int) :
    ∃ s₀, RateLimiter 0 d = .ok s₀ ∧
      step s₀ .startSleep = some { s₀ with pc := .crashed .integerDivideByZero } := by
  refine ⟨_, (RateLimiter_ok_iff 0 d _).2 ⟨le_refl _, rfl⟩, ?_⟩
  simp [step, interval, goDiv]

/-! ## The claims -/

/-- C1: for `maxRequests > 0` the channel is created empty with capacity exactly
`maxRequests`; in every reachable state the capacity is still `maxRequests`, the
number of buffered permits is at most `maxRequests`, the producer's send is enabled
only when the buffer is not full and the consumer's receive only when it is not
empty. -/
theorem C1_buffer_bounded (n d : Int) (hn : 0 < n) :
    (∃ s₀, RateLimiter n d = .ok s₀ ∧ s₀.ch.len = 0 ∧ (s₀.ch.cap : Int) = n) ∧
    ∀ s, Reachable n d s →
      (s.ch.cap : Int) = n ∧ (s.ch.len : Int) ≤ n ∧
      (∀ s', step s .send = some s' → s.ch.len < s.ch.cap) ∧
      (∀ s', step s .recv = some s' → 0 < s.ch.len) := by
  constructor
  · refine ⟨_, (RateLimiter_ok_iff n d _).2 ⟨le_of_lt hn, rfl⟩, rfl, ?_⟩
    exact Int.toNat_of_nonneg (le_of_lt hn)
  · intro s hs
    obtain ⟨i1, i2, i3, i4, i5, i6, i7, i8⟩ := Inv_of_reachable n d s hs
    refine ⟨i3, by omega, ?_, ?_⟩
    · intro s' h
      obtain ⟨_, ⟨hc, _⟩ | ⟨_, hlt, _⟩⟩ := (step_send_iff s s').1 h
      · simp [i4] at hc
      · exact hlt
    · intro s' h
      obtain ⟨_, ⟨hl, _⟩ | ⟨_, hc, _⟩⟩ := (step_recv_iff s s').1 h
      · exact hl
      · simp [i4] at hc

/-- Witness of C1 at `RateLimiter(3, time.Minute)` and its steady state. -/
theorem C1_buffer_bounded_witness :
    (0 : Int) < 3 ∧ Reachable 3 Minute steadyState ∧
      ((steadyState.ch.cap : Int) = 3 ∧ (steadyState.ch.len : Int) ≤ 3 ∧
        (∀ s', step steadyState .send = some s' → steadyState.ch.len < steadyState.ch.cap) ∧
        (∀ s', step steadyState .recv = some s' → 0 < steadyState.ch.len)) :=
  ⟨by decide, steadyState_reachable,
    (C1_buffer_bounded 3 Minute (by decide)).2 steadyState steadyState_reachable⟩

/-- C2: for `maxRequests > 0` and a duration in the range of `int64`, the interval of
line 13 is the truncated quotient `duration / maxRequests`, and it is the time the
producer sleeps (when positive); for `duration ≥ 0` it satisfies
`maxRequests * interval ≤ duration < maxRequests * interval + maxRequests`;
for `RateLimiter(3, time.Minute)` it is 20 s, that is 20,000,000,000 ns. -/
theorem C2_interval (n d : Int) (hn : 0 < n) (hd : isInt64 d) :
    interval n d = .ok (Int.tdiv d n) ∧
    (∀ s, Reachable n d s → s.pc = .atSleep →
      step s .startSleep = some { s with pc := .sleeping (s.now + max (Int.tdiv d n) 0) }) ∧
    (0 ≤ d → n * Int.tdiv d n ≤ d ∧ d < n * Int.tdiv d n + n) ∧
    (d ≤ 0 → d ≤ n * Int.tdiv d n ∧ n * Int.tdiv d n < d + n) ∧
    interval 3 Minute = .ok 20000000000 ∧ (20000000000 : Int) = 20 * Second := by
  have hiv := interval_of_pos n d hn hd
  refine ⟨hiv, ?_, ?_, ?_, by decide, by decide⟩
  · intro s hs hpc
    obtain ⟨i1, i2, _⟩ := Inv_of_reachable n d s hs
    exact (step_startSleep_iff s _).2 ⟨hpc, Or.inr ⟨_, by rw [i1, i2]; exact hiv, rfl⟩⟩
  · intro h0
    exact (tdiv_bounds_nonneg n d hn h0).2
  · intro h0
    exact (tdiv_bounds_nonpos n d hn h0).2

/-- Witness of C2 at `maxRequests = 7`, `duration = 100` ns. -/
theorem C2_interval_witness :
    (0 : Int) < 7 ∧ isInt64 100 ∧ interval 7 100 = .ok (Int.tdiv 100 7) ∧
      Int.tdiv 100 7 = 14 :=
  ⟨by decide, by decide, (C2_interval 7 100 (by decide) (by decide)).1, by decide⟩

/-- C10: for `maxRequests > 0` the division of line 13 never panics, its result is
strictly positive exactly when `duration ≥ maxRequests` nanoseconds, and for
`0 < duration < maxRequests` it is zero, so that the producer's sleep ends at the
instant it starts. -/
theorem C10_interval_positive_iff (n d : Int) (hn : 0 < n) (hd : isInt64 d) :
    ∃ iv, interval n d = .ok iv ∧ (∀ p, interval n d ≠ .panicked p) ∧
      (0 < iv ↔ n ≤ d) ∧
      (0 < d → d < n → iv = 0 ∧
        ∀ s, Reachable n d s → s.pc = .atSleep →
          step s .startSleep = some { s with pc := .sleeping s.now }) := by
  have hiv := interval_of_pos n d hn hd
  refine ⟨Int.tdiv d n, hiv, ?_, ?_, ?_⟩
  · intro p hp
    rw [hiv] at hp
    exact Result.noConfusion hp
  · constructor
    · intro hpos
      by_contra hlt
      by_cases h0 : 0 ≤ d
      · have := tdiv_bounds_nonneg n d hn h0
        nlinarith
      · have := tdiv_bounds_nonpos n d hn (by omega)
        omega
    · intro hle
      have := tdiv_bounds_nonneg n d hn (by omega)
      by_contra hnp
      have hz : Int.tdiv d n = 0 := by omega
      rw [hz] at this
      omega
  · intro h0 hlt
    have hb := tdiv_bounds_nonneg n d hn (le_of_lt h0)
    have hz : Int.tdiv d n = 0 := by
      by_contra hne
      have : 1 ≤ Int.tdiv d n := by omega
      nlinarith
    refine ⟨hz, ?_⟩
    intro s hs hpc
    obtain ⟨i1, i2, _⟩ := Inv_of_reachable n d s hs
    refine (step_startSleep_iff s _).2 ⟨hpc, Or.inr ⟨Int.tdiv d n, by rw [i1, i2]; exact hiv, ?_⟩⟩
    rw [hz]
    simp

/-- Witness of C10 at `maxRequests = 3`, `duration = 2` ns. -/
theorem C10_interval_positive_iff_witness :
    (0 : Int) < 3 ∧ isInt64 2 ∧
      ∃ iv, interval 3 2 = .ok iv ∧ (∀ p, interval 3 2 ≠ .panicked p) ∧
        (0 < iv ↔ (3 : Int) ≤ 2) ∧
        ((0 : Int) < 2 → (2 : Int) < 3 → iv = 0 ∧
          ∀ s, Reachable 3 2 s → s.pc = .atSleep →
            step s .startSleep = some { s with pc := .sleeping s.now }) :=
  ⟨by decide, by decide, C10_interval_positive_iff 3 2 (by decide) (by decide)⟩

/-- C6: the producer never drops a permit.  In every reachable state the number of
completed sleeps equals the permits acquired plus the permits buffered plus the one
permit the producer holds at the send, and completed enqueues equal completed acquires
plus the queue length; a send enqueues exactly one permit; at a full queue the send is
not enabled while time may pass, and once a receive has freed a slot the pending send
is enabled and enqueues the held permit, filling the queue again. -/
theorem C6_no_permit_dropped (n d : Int) (s : State) (hs : Reachable n d s) :
    s.slept = s.acquired + s.ch.len + (if s.pc = .atSend then 1 else 0) ∧
    s.enqueued = s.acquired + s.ch.len ∧
    (∀ s', step s .send = some s' →
      s'.ch.len = s.ch.len + 1 ∧ s'.enqueued = s.enqueued + 1 ∧ s'.slept = s.slept ∧
      s'.acquired = s.acquired) ∧
    (s.pc = .atSend → s.ch.len = s.ch.cap →
      step s .send = none ∧ (∀ δ, 0 ≤ δ → (step s (.stall δ)).isSome) ∧
      ∀ s₁, step s .recv = some s₁ →
        s₁.pc = .atSend ∧ s₁.slept = s.slept ∧
        ∃ s₂, step s₁ .send = some s₂ ∧ s₂.ch.len = s.ch.cap ∧
          s₂.enqueued = s.enqueued + 1) := by
  obtain ⟨i1, i2, i3, i4, i5, i6, i7, i8⟩ := Inv_of_reachable n d s hs
  refine ⟨by omega, i6, ?_, ?_⟩
  · intro s' h
    obtain ⟨_, ⟨hc, _⟩ | ⟨_, _, rfl⟩⟩ := (step_send_iff s s').1 h
    · simp [i4] at hc
    · simp [State.enqueued, State.acquired]
  · intro hpc hfull
    refine ⟨?_, ?_, ?_⟩
    · cases hsend : step s .send with
      | none => rfl
      | some s' =>
        obtain ⟨_, ⟨hc, _⟩ | ⟨_, hlt, _⟩⟩ := (step_send_iff s s').1 hsend
        · simp [i4] at hc
        · omega
    · intro δ hδ
      rw [(step_stall_iff s _ δ).2 ⟨hpc, hδ, i4, hfull, rfl⟩]
      rfl
    · intro s₁ h
      obtain ⟨_, ⟨hl, rfl⟩ | ⟨_, hc, _⟩⟩ := (step_recv_iff s s₁).1 h
      · refine ⟨hpc, rfl, _, (step_send_iff _ _).2 ⟨hpc, Or.inr ⟨i4, ?_, rfl⟩⟩, ?_, ?_⟩
        · show s.ch.len - 1 < s.ch.cap
          omega
        · show s.ch.len - 1 + 1 = s.ch.cap
          omega
        · simp [State.enqueued]
      · simp [i4] at hc

/-- Witness of C6 at the steady state of `RateLimiter(3, time.Minute)`: four sleeps
completed, three permits buffered, one held at the blocked send. -/
theorem C6_no_permit_dropped_witness :
    Reachable 3 Minute steadyState ∧
      steadyState.slept = steadyState.acquired + steadyState.ch.len + 1 ∧
      steadyState.enqueued = steadyState.acquired + steadyState.ch.len ∧
      step steadyState .send = none :=
  have h := C6_no_permit_dropped 3 Minute steadyState steadyState_reachable
  ⟨steadyState_reachable, h.1, h.2.1, (h.2.2.2 rfl rfl).1⟩

/-- C7: for `maxRequests > 0`, in every reachable state the receive is enabled if and
only if the queue is not empty; it removes exactly one permit, leaves the capacity
unchanged and counts one more acquisition, never more than the permits enqueued; the
channel is never closed; and the blocking receive always completes, at once when a
permit is buffered. -/
theorem C7_acquire (n d : Int) (hn : 0 < n) (s : State) (hs : Reachable n d s) :
    ((step s .recv).isSome ↔ 0 < s.ch.len) ∧
    (∀ s', step s .recv = some s' →
      s'.ch.len + 1 = s.ch.len ∧ s'.ch.cap = s.ch.cap ∧ s'.acquired = s.acquired + 1 ∧
      s'.acquired ≤ s'.enqueued ∧ s'.ch.closed = false) ∧
    s.ch.closed = false ∧
    (∃ s', acquire s = some s' ∧ s'.acquired = s.acquired + 1 ∧ s'.ch.cap = s.ch.cap ∧
      s'.acquired ≤ s'.enqueued ∧ s.now ≤ s'.now ∧
      (0 < s.ch.len → s'.now = s.now ∧ s'.ch.len + 1 = s.ch.len)) := by
  have hne : n ≠ 0 := ne_of_gt hn
  obtain ⟨iv, hiv⟩ : ∃ iv, interval n d = .ok iv := ⟨_, (interval_ok_iff n d _).2 ⟨hne, rfl⟩⟩
  have hinv := invariants_of_reachable n d iv hiv s hs
  obtain ⟨i1, i2, i3, i4, i5, i6, i7, i8⟩ := hinv.1
  have hpc : ∀ p, s.pc ≠ .crashed p := fun p hp => hne (i8 p hp)
  have hrecv : ∀ s', step s .recv = some s' →
      0 < s.ch.len ∧ s' = { s with ch := { s.ch with len := s.ch.len - 1 },
                                   acqTimes := s.now :: s.acqTimes } := by
    intro s' h
    obtain ⟨_, ⟨hl, e⟩ | ⟨_, hc, _⟩⟩ := (step_recv_iff s s').1 h
    · exact ⟨hl, e⟩
    · simp [i4] at hc
  refine ⟨?_, ?_, i4, ?_⟩
  · constructor
    · intro h
      obtain ⟨s', hs'⟩ := Option.isSome_iff_exists.1 h
      exact (hrecv s' hs').1
    · intro hl
      rw [(step_recv_iff s _).2 ⟨hpc, Or.inl ⟨hl, rfl⟩⟩]
      rfl
  · intro s' h
    obtain ⟨hl, rfl⟩ := hrecv s' h
    simp only [State.enqueued, State.acquired] at i6
    refine ⟨?_, rfl, rfl, ?_, i4⟩
    · show s.ch.len - 1 + 1 = s.ch.len
      omega
    · show (s.now :: s.acqTimes).length ≤ s.enqTimes.length
      simp only [List.length_cons]
      omega
  · by_cases hl : 0 < s.ch.len
    · simp only [State.enqueued, State.acquired] at i6
      refine ⟨_, acquire_buffered s hpc hl, rfl, rfl, ?_, le_refl _, fun _ => ⟨rfl, ?_⟩⟩
      · show (s.now :: s.acqTimes).length ≤ s.enqTimes.length
        simp only [List.length_cons]
        omega
      · show s.ch.len - 1 + 1 = s.ch.len
        omega
    · have h0 : s.ch.len = 0 := by omega
      refine ⟨_, acquire_empty n d iv hn hiv s hinv.1 hinv.2 h0, ?_⟩
      obtain ⟨t1, t2, t3, t4, t5, t6⟩ := hinv.2
      have hrem : 0 ≤ remaining iv s := by
        unfold remaining
        cases hp : s.pc with
        | atSleep => exact le_max_right _ _
        | sleeping w =>
          have := (t4 w hp).1
          simp only
          omega
        | atSend => exact le_refl _
        | crashed p => exact le_refl _
      simp only [State.enqueued, State.acquired] at i6
      refine ⟨rfl, rfl, ?_, ?_, fun h => absurd h hl⟩
      · show ((s.now + remaining iv s) :: s.acqTimes).length
          ≤ ((s.now + remaining iv s) :: s.enqTimes).length
        simp only [List.length_cons]
        omega
      · show s.now ≤ s.now + remaining iv s
        omega

/-- Witness of C7 at the steady state of `RateLimiter(3, time.Minute)`. -/
theorem C7_acquire_witness :
    (0 : Int) < 3 ∧ Reachable 3 Minute steadyState ∧ steadyState.ch.closed = false ∧
      ((step steadyState .recv).isSome ↔ 0 < steadyState.ch.len) :=
  have h := C7_acquire 3 Minute (by decide) steadyState steadyState_reachable
  ⟨by decide, steadyState_reachable, h.2.2.1, h.1⟩

/-- C4, as the code has it: `RateLimiter` validates nothing and returns no error
value.  With `maxRequests < 0` the call does fail synchronously, by the run-time panic
of `make`; with `maxRequests = 0` it does not fail: it returns a limiter whose channel
has capacity zero. -/
theorem C4_nonpositive_maxRequests (d : Int) :
    (∀ n, n < 0 → RateLimiter n d = .panicked .makechanSizeOutOfRange) ∧
    RateLimiter 0 d = .ok { maxRequests := 0, duration := d, now := 0,
                            ch := { cap := 0, len := 0, closed := false },
                            pc := .atSleep, slept := 0, enqTimes := [], acqTimes := [] } := by
  constructor
  · intro n hn
    simp [RateLimiter, makeChan, hn]
  · simp [RateLimiter, makeChan]

/-- Witness of the amended C4 at `maxRequests = -1`. -/
theorem C4_nonpositive_maxRequests_witness :
    (-1 : Int) < 0 ∧ RateLimiter (-1) Minute = .panicked .makechanSizeOutOfRange :=
  ⟨by decide, (C4_nonpositive_maxRequests Minute).1 (-1) (by decide)⟩

/-- C4 fails at `RateLimiter(0, time.Minute)`: the call raises nothing and returns a
limiter. -/
theorem C4_counterexample :
    RateLimiter 0 Minute =
      .ok { maxRequests := 0, duration := Minute, now := 0,
            ch := { cap := 0, len := 0, closed := false },
            pc := .atSleep, slept := 0, enqTimes := [], acqTimes := [] } ∧
    ¬ ∃ p, RateLimiter 0 Minute = .panicked p := by
  constructor
  · decide
  · rintro ⟨p, hp⟩
    simp [RateLimiter, makeChan] at hp

/-- C5, as the code has it: with `maxRequests > 0` and `duration ≤ 0` the call does not
fail.  It returns a limiter with an empty channel of capacity `maxRequests`; the
interval is not positive, so every sleep of the producer ends at the instant it starts,
and the first permit is enqueued at the instant of creation. -/
theorem C5_nonpositive_duration (n d : Int) (hn : 0 < n) (hd : d ≤ 0) (hr : isInt64 d) :
    ∃ s₀ iv, RateLimiter n d = .ok s₀ ∧ s₀.ch.len = 0 ∧ (s₀.ch.cap : Int) = n ∧
      interval n d = .ok iv ∧ iv ≤ 0 ∧
      (∀ s, Reachable n d s → s.pc = .atSleep →
        step s .startSleep = some { s with pc := .sleeping s.now }) ∧
      ∃ s, run s₀ [.startSleep, .wake, .send] = some s ∧ s.now = 0 ∧ s.enqTimes = [0] ∧
        s.ch.len = 1 := by
  have hiv := interval_of_pos n d hn hr
  have hle := (tdiv_bounds_nonpos n d hn hd).1
  have hcap : 0 < n.toNat := by omega
  refine ⟨_, _, (RateLimiter_ok_iff n d _).2 ⟨le_of_lt hn, rfl⟩, rfl,
    Int.toNat_of_nonneg (le_of_lt hn), hiv, hle, ?_, ?_⟩
  · intro s hs hpc
    obtain ⟨i1, i2, _⟩ := Inv_of_reachable n d s hs
    refine (step_startSleep_iff s _).2 ⟨hpc, Or.inr ⟨Int.tdiv d n, by rw [i1, i2]; exact hiv, ?_⟩⟩
    rw [max_eq_right hle]
    simp
  · simp [run, step, hiv, max_eq_right hle, hcap]

/-- Witness of the amended C5 at `RateLimiter(3, -1)`. -/
theorem C5_nonpositive_duration_witness :
    (0 : Int) < 3 ∧ (-1 : Int) ≤ 0 ∧ isInt64 (-1) ∧
      ∃ s₀ iv, RateLimiter 3 (-1) = .ok s₀ ∧ s₀.ch.len = 0 ∧ (s₀.ch.cap : Int) = 3 ∧
        interval 3 (-1) = .ok iv ∧ iv ≤ 0 ∧
        (∀ s, Reachable 3 (-1) s → s.pc = .atSleep →
          step s .startSleep = some { s with pc := .sleeping s.now }) ∧
        ∃ s, run s₀ [.startSleep, .wake, .send] = some s ∧ s.now = 0 ∧ s.enqTimes = [0] ∧
          s.ch.len = 1 :=
  ⟨by decide, by decide, by decide,
    C5_nonpositive_duration 3 (-1) (by decide) (by decide) (by decide)⟩

/-- C5 fails at `RateLimiter(3, 0)`: the call raises nothing and returns a limiter,
whose producer sleeps an interval of zero. -/
theorem C5_counterexample :
    RateLimiter 3 0 =
      .ok { maxRequests := 3, duration := 0, now := 0,
            ch := { cap := 3, len := 0, closed := false },
            pc := .atSleep, slept := 0, enqTimes := [], acqTimes := [] } ∧
    (¬ ∃ p, RateLimiter 3 0 = .panicked p) ∧
    interval 3 0 = .ok 0 := by
  refine ⟨by decide, ?_, by decide⟩
  rintro ⟨p, hp⟩
  simp [RateLimiter, makeChan] at hp

/-- C3: for `maxRequests > 0` and `duration > 0`, with `iv = duration / maxRequests`:
a completed sleep precedes every enqueue; in every run the first permit is enqueued no
earlier than `iv` after creation, consecutive enqueues are at least `iv` apart, and the
`k`-th permit is enqueued no earlier than `k * iv`; time passes at a pending send only
while the queue is full, and in a run in which it never does (the consumer never lets
the queue fill in front of the producer), the `k`-th permit is enqueued at exactly
`k * iv`.  Permits are in fact produced: for every `k` there is such a run, in which the
first `k` permits have been enqueued, the `j`-th at exactly `j * iv`; from every state
of a run with room in the buffer the producer on its own (no receive, no waiting at the
send) completes its next enqueue, after what remains of its pause, at most `iv`; and
from every state of a run any further number of permits can still be enqueued. -/
theorem C3_production_spacing (n d iv : Int) (hn : 0 < n) (hd : 0 < d) (hr : isInt64 d)
    (hiv : interval n d = .ok iv) (s₀ : State) (h0 : RateLimiter n d = .ok s₀)
    (ls : List Label) (s : State) (hrun : run s₀ ls = some s) :
    iv = Int.tdiv d n ∧
    s.slept = s.enqueued + (if s.pc = .atSend then 1 else 0) ∧
    (∀ t, s.enqAt 1 = some t → iv ≤ t) ∧
    (∀ k t t', s.enqAt k = some t → s.enqAt (k + 1) = some t' → t + iv ≤ t') ∧
    (∀ k t, s.enqAt k = some t → k * iv ≤ t) ∧
    (∀ x δ x', step x (.stall δ) = some x' → x.pc = .atSend ∧ x.ch.len = x.ch.cap) ∧
    ((∀ δ, Label.stall δ ∈ ls → δ = 0) → ∀ k t, s.enqAt k = some t → t = k * iv) ∧
    (∀ k : Nat, ∃ ls' s', run s₀ ls' = some s' ∧ (∀ δ, Label.stall δ ∉ ls') ∧
      s'.enqueued = k ∧ ∀ j : Nat, 1 ≤ j → j ≤ k → s'.enqAt j = some (j * iv)) ∧
    (s.ch.len < s.ch.cap → ∃ s', run s (produceSteps s) = some s' ∧
      s'.enqTimes = (s.now + remaining iv s) :: s.enqTimes ∧
      s'.now = s.now + remaining iv s ∧ 0 ≤ remaining iv s ∧ remaining iv s ≤ iv) ∧
    (∀ l ∈ produceSteps s, l ≠ .recv ∧ ∀ δ, l ≠ .stall δ) ∧
    (∀ m : Nat, ∃ ls' s', run s ls' = some s' ∧ s'.enqueued = s.enqueued + m) := by
  have hiv' := interval_of_pos n d hn hr
  have hnn : 0 ≤ iv := by
    rw [hiv, Result.ok.injEq] at hiv'
    rw [hiv']
    exact (tdiv_bounds_nonneg n d hn (le_of_lt hd)).1
  obtain ⟨hI, hT⟩ := invariants_of_run n d iv hiv s₀ h0 ls s hrun
  have hI0 := hI
  have hT0 := hT
  obtain ⟨_, _, _, _, _, _, i7, _⟩ := hI
  obtain ⟨_, t2, _⟩ := hT
  refine ⟨?_, i7, ?_, ?_, ?_, ?_, ?_, ?_, ?_, produceSteps_labels s, ?_⟩
  · rw [hiv, Result.ok.injEq] at hiv'
    exact hiv'
  · intro t h
    exact Spaced_first iv _ t2 t h
  · intro k t t' h h'
    exact Spaced_succ iv _ t2 k t t' h h'
  · intro k t h
    exact Spaced_nth iv _ t2 k t h
  · intro x δ x' h
    obtain ⟨hpc, _, _, hfull, _⟩ := (step_stall_iff x x' δ).1 h
    exact ⟨hpc, hfull⟩
  · intro hls
    exact (EInv_of_run n d iv hiv hnn s₀ h0 ls hls s hrun).1
  · intro k
    obtain ⟨ls', s', hrun', hns, _, _, henq⟩ := keepUp_run n d iv hn hiv s₀ h0 k
    refine ⟨ls', s', hrun', hns, henq, ?_⟩
    intro j hj1 hjk
    simp only [State.enqueued] at henq
    obtain ⟨t, ht⟩ := nth_of_bounds s'.enqTimes j hj1 (by omega)
    have hex := (EInv_of_run n d iv hiv hnn s₀ h0 ls'
      (fun δ hδ => absurd hδ (hns δ)) s' hrun').1 j t ht
    rw [← hex]
    exact ht
  · intro hl
    have hb := remaining_bounds iv hnn s hT0
    exact ⟨_, produce_next n d iv hn hiv s hI0 hT0 hl, rfl, rfl, hb.1, hb.2⟩
  · exact produce_more n d iv hn hiv s ⟨s₀, ls, h0, hrun⟩

/-- Witness of C3: in the run of `RateLimiter(3, time.Minute)` in which the consumer
takes each permit as it is sent, the permits are enqueued at 20 s and 40 s. -/
theorem C3_production_spacing_witness :
    run coldStart keepingUp = some afterTwo ∧ afterTwo.enqAt 2 = some (40 * Second) ∧
      (∀ k t, afterTwo.enqAt k = some t → t = k * (20 * Second)) ∧
      (∃ ls' s', run coldStart ls' = some s' ∧ (∀ δ, Label.stall δ ∉ ls') ∧
        s'.enqueued = 5 ∧
        ∀ j : Nat, 1 ≤ j → j ≤ 5 → s'.enqAt j = some (j * (20 * Second))) ∧
      (∃ s', run afterTwo (produceSteps afterTwo) = some s' ∧
        s'.enqTimes = (afterTwo.now + remaining (20 * Second) afterTwo) :: afterTwo.enqTimes ∧
        s'.now = afterTwo.now + remaining (20 * Second) afterTwo ∧
        0 ≤ remaining (20 * Second) afterTwo ∧
        remaining (20 * Second) afterTwo ≤ 20 * Second) :=
  have h := C3_production_spacing 3 Minute (20 * Second) (by decide) (by decide) (by decide)
    (by decide) coldStart (by decide) keepingUp afterTwo (by decide)
  ⟨by decide, by decide,
    h.2.2.2.2.2.2.1 (by simp [keepingUp, producerRound]),
    h.2.2.2.2.2.2.2.1 5,
    h.2.2.2.2.2.2.2.2.1 (by decide)⟩

/-- C8, as the code has it.  From a reachable state with a full queue (`N = maxRequests`
permits), `N` consecutive acquires complete with no wait.  The `(N+1)`-th acquire waits
what remains of the producer's pause and no schedule completes it earlier; that wait is
at most one interval, is a full interval when the producer is about to start its sleep,
and is zero when the producer has finished its sleep and is blocked on the send, in
which case the `(N+2)`-th acquire is the one that waits one interval. -/
theorem C8_burst_from_full (n d iv : Int) (hn : 0 < n) (hd : 0 < d) (hr : isInt64 d)
    (hiv : interval n d = .ok iv) (s : State) (hs : Reachable n d s)
    (hfull : s.ch.len = s.ch.cap) :
    (s.ch.len : Int) = n ∧
    (∃ s₁, acquireN n.toNat s = some s₁ ∧ s₁.now = s.now ∧
      s₁.acqTimes = List.replicate n.toNat s.now ++ s.acqTimes) ∧
    (∃ s₂, acquireN (n.toNat + 1) s = some s₂ ∧ s₂.now = s.now + remaining iv s ∧
      s₂.acqTimes = (s.now + remaining iv s) :: (List.replicate n.toNat s.now ++ s.acqTimes)) ∧
    (∀ ls s', run s ls = some s' → s.acquired + n.toNat < s'.acquired →
      s.now + remaining iv s ≤ s'.now) ∧
    0 ≤ remaining iv s ∧ remaining iv s ≤ iv ∧
    (s.pc = .atSleep → remaining iv s = iv) ∧
    (s.pc = .atSend → remaining iv s = 0 ∧
      ∃ s₃, acquireN (n.toNat + 2) s = some s₃ ∧ s₃.now = s.now + iv) := by
  have hiv' := interval_of_pos n d hn hr
  have hnn : 0 ≤ iv := by
    rw [hiv, Result.ok.injEq] at hiv'
    rw [hiv']
    exact (tdiv_bounds_nonneg n d hn (le_of_lt hd)).1
  obtain ⟨hI, hT⟩ := invariants_of_reachable n d iv hiv s hs
  obtain ⟨i1, i2, i3, i4, i5, i6, i7, i8⟩ := hI
  obtain ⟨t1, t2, t3, t4, t5, t6⟩ := hT
  have hpc : ∀ p, s.pc ≠ .crashed p := fun p hp => (ne_of_gt hn) (i8 p hp)
  have hlen : s.ch.len = n.toNat := by omega
  have hrem0 : 0 ≤ remaining iv s := by
    unfold remaining
    cases hp : s.pc with
    | atSleep => exact le_max_right _ _
    | sleeping w =>
      have := (t4 w hp).1
      simp only
      omega
    | atSend => exact le_refl _
    | crashed p => exact le_refl _
  have hrem1 : remaining iv s ≤ iv := by
    unfold remaining
    cases hp : s.pc with
    | atSleep => simp [hnn]
    | sleeping w =>
      have := (t4 w hp).2.2
      rw [max_eq_left hnn] at this
      simp only
      omega
    | atSend => exact hnn
    | crashed p => exact hnn
  obtain ⟨s₁, h1, hnow1, hacq1, hlen1, hpc1⟩ : ∃ s₁, acquireN n.toNat s = some s₁ ∧
      s₁.now = s.now ∧ s₁.acqTimes = List.replicate n.toNat s.now ++ s.acqTimes ∧
      s₁.ch.len = 0 ∧ s₁.pc = s.pc :=
    ⟨_, acquireN_drain n.toNat s hpc (by omega), rfl, rfl,
      by show s.ch.len - n.toNat = 0; omega, rfl⟩
  have hr1 : Reachable n d s₁ := Reachable_acquireN n d n.toNat s s₁ hs h1
  obtain ⟨hI1, hT1⟩ := invariants_of_reachable n d iv hiv s₁ hr1
  have hrem_eq : remaining iv s₁ = remaining iv s := by
    unfold remaining
    rw [hpc1, hnow1]
  obtain ⟨s₂, h2, hnow2, hacq2, hlen2, hpc2⟩ : ∃ s₂, acquire s₁ = some s₂ ∧
      s₂.now = s₁.now + remaining iv s₁ ∧
      s₂.acqTimes = (s₁.now + remaining iv s₁) :: s₁.acqTimes ∧
      s₂.ch.len = 0 ∧ s₂.pc = .atSleep :=
    ⟨_, acquire_empty n d iv hn hiv s₁ hI1 hT1 hlen1, rfl, rfl, hlen1, rfl⟩
  have hN1 : acquireN (n.toNat + 1) s = some s₂ := by
    simp only [acquireN]
    rw [h1, Option.some_bind]
    exact h2
  rw [hrem_eq, hnow1] at hnow2
  rw [hrem_eq, hnow1, hacq1] at hacq2
  refine ⟨by omega, ⟨s₁, h1, hnow1, hacq1⟩, ⟨s₂, hN1, hnow2, hacq2⟩, ?_, hrem0, hrem1, ?_, ?_⟩
  · intro ls s' hrun hlt
    exact recv_not_before n d iv hiv s ⟨i1, i2, i3, i4, i5, i6, i7, i8⟩ ls s' hrun (by omega)
  · intro hp
    simp [remaining, hp, hnn]
  · intro hp
    have hz : remaining iv s = 0 := by simp [remaining, hp]
    refine ⟨hz, ?_⟩
    have hr2 : Reachable n d s₂ := Reachable_acquireN n d (n.toNat + 1) s s₂ hs hN1
    obtain ⟨hI2, hT2⟩ := invariants_of_reachable n d iv hiv s₂ hr2
    have hrem2 : remaining iv s₂ = iv := by
      unfold remaining
      rw [hpc2]
      exact max_eq_left hnn
    obtain ⟨s₃, h3, hnow3⟩ : ∃ s₃, acquire s₂ = some s₃ ∧ s₃.now = s₂.now + remaining iv s₂ :=
      ⟨_, acquire_empty n d iv hn hiv s₂ hI2 hT2 hlen2, rfl⟩
    refine ⟨s₃, ?_, ?_⟩
    · show (acquireN (n.toNat + 1) s).bind acquire = _
      rw [hN1, Option.some_bind]
      exact h3
    · rw [hnow3, hrem2, hnow2, hz]
      omega

/-- Witness of the amended C8 at the state of `RateLimiter(3, time.Minute)` in which
the queue has just become full: the fourth acquire waits the full 20 s. -/
theorem C8_burst_from_full_witness :
    Reachable 3 Minute justFull ∧ justFull.ch.len = justFull.ch.cap ∧
      remaining (20 * Second) justFull = 20 * Second ∧
      ∃ s₂, acquireN ((3 : Int).toNat + 1) justFull = some s₂ ∧
        s₂.now = justFull.now + remaining (20 * Second) justFull ∧
        s₂.acqTimes = (justFull.now + remaining (20 * Second) justFull) ::
          (List.replicate (3 : Int).toNat justFull.now ++ justFull.acqTimes) :=
  have h := C8_burst_from_full 3 Minute (20 * Second) (by decide) (by decide) (by decide)
    (by decide) justFull justFull_reachable (by decide)
  ⟨justFull_reachable, by decide, by decide, h.2.2.1⟩

/-- C8 fails at the steady state of `RateLimiter(3, time.Minute)`, which the producer
reaches on its own when nothing is consumed (three permits buffered, the fourth held at
the blocked send, at 80 s): four consecutive acquires complete at 80 s, so the fourth
waits nothing, not the interval of 20 s. -/
theorem C8_counterexample :
    RateLimiter 3 Minute = .ok coldStart ∧
    run coldStart producerAlone = some steadyState ∧
    steadyState.ch.len = 3 ∧ steadyState.pc = .atSend ∧ steadyState.now = 80 * Second ∧
    interval 3 Minute = .ok (20 * Second) ∧
    (acquireN 4 steadyState).map State.acqTimes =
      some [80 * Second, 80 * Second, 80 * Second, 80 * Second] ∧
    (acquireN 4 steadyState).map State.now = some (80 * Second) ∧
    ¬ ((acquireN 4 steadyState).map State.now = some (steadyState.now + 20 * Second)) := by
  decide

/-- C9: `main` performs exactly five acquisitions on `RateLimiter(3, time.Minute)`,
numbered 1 to 5; from the cold start the `i`-th completes exactly `i * 20 s` after
creation, 100 s in total; and no schedule of the limiter completes an `i`-th receive
earlier than `i * 20 s`. -/
theorem C9_main_cold_start :
    main = some [(1, 20 * Second), (2, 40 * Second), (3, 60 * Second), (4, 80 * Second),
                 (5, 100 * Second)] ∧
    (∃ out, mainLoop 5 0 coldStart [] = some (afterMain, out)) ∧
    afterMain.acquired = 5 ∧ afterMain.now = 100 * Second ∧
    (5 : Int) * (20 * Second) = 100 * Second ∧
    (∀ i t, afterMain.acqAt i = some t → t = i * (20 * Second)) ∧
    (∀ s₀ ls s, RateLimiter 3 Minute = .ok s₀ → run s₀ ls = some s →
      ∀ i t, s.acqAt i = some t → i * (20 * Second) ≤ t) := by
  refine ⟨by decide, ⟨[(1, 20 * Second), (2, 40 * Second), (3, 60 * Second),
    (4, 80 * Second), (5, 100 * Second)], by decide⟩, by decide, by decide, by decide, ?_, ?_⟩
  · intro i t h
    have hb := nth_some_bounds _ _ _ h
    have h5 : afterMain.acqTimes.length = 5 := by decide
    rw [h5] at hb
    obtain ⟨h1, h2⟩ := hb
    interval_cases i <;> revert h <;> revert t <;> decide
  · intro s₀ ls s h0 hrun i t h
    obtain ⟨_, hT⟩ := invariants_of_run 3 Minute (20 * Second) (by decide) s₀ h0 ls s hrun
    obtain ⟨_, t2, _, _, _, t6⟩ := hT
    obtain ⟨e, he, hle⟩ := t6 i t h
    have := Spaced_nth (20 * Second) _ t2 i e he
    omega

/-- Witness of C9: in the run of `RateLimiter(3, time.Minute)` in which the consumer
keeps up, the second receive completes at 40 s, not earlier than 2 * 20 s. -/
theorem C9_main_cold_start_witness :
    run coldStart keepingUp = some afterTwo ∧ afterTwo.acqAt 2 = some (40 * Second) ∧
      ((2 : Nat) : Int) * (20 * Second) ≤ 40 * Second :=
  ⟨by decide, by decide,
    C9_main_cold_start.2.2.2.2.2.2 coldStart keepingUp afterTwo (by decide) (by decide) 2
      (40 * Second) (by decide)⟩

end RateLimiterGo
